import Mathlib

/-!
Verification of the flat-file content store of the personal-blog repository
(`server/index.ts`): frontmatter codec, slug generator, post repository,
comment log and ephemeral session registry.

Strings are modelled as `List Char` (JavaScript strings are sequences of
characters; none of the verified code depends on UTF-16 surrogate details).
Wall-clock readings (`Date.now()`, `new Date().toISOString()`) are passed in
explicitly as parameters, turning each handler into a pure function of its
inputs plus the clock reading, and the filesystem / JSON file backing stores
are modelled as association lists threaded through the operations.
-/

namespace Blog

/-! ## Basic character/string helpers -/

/-- Whitespace test used to model JavaScript's `String.prototype.trim`:
the full ECMAScript WhiteSpace plus LineTerminator set, namely TAB, LF,
VT, FF, CR, the code points of Unicode category Space_Separator (space,
NBSP, U+1680, U+2000 to U+200A, U+202F, U+205F, U+3000), the line and
paragraph separators U+2028/U+2029, and the zero-width no-break space
U+FEFF. -/
def isWsChar (c : Char) : Bool :=
  c = '\t' || c = '\n' || c = '\u000B' || c = '\u000C' || c = '\r' ||
  c = ' ' || c = '\u00A0' || c = '\u1680' ||
  ('\u2000' ≤ c && c ≤ '\u200A') ||
  c = '\u2028' || c = '\u2029' || c = '\u202F' || c = '\u205F' ||
  c = '\u3000' || c = '\uFEFF'

/-- Leading-whitespace strip, first half of JS `trim()`. -/
def trimLeft (l : List Char) : List Char := l.dropWhile isWsChar

/-- Trailing-whitespace strip, second half of JS `trim()`. -/
def trimRight (l : List Char) : List Char := (l.reverse.dropWhile isWsChar).reverse

/-- Model of JS `value.trim()`. -/
def trimStr (l : List Char) : List Char := trimRight (trimLeft l)

/-- Quote characters recognised by the frontmatter value cleanup regex. -/
def isQuoteChar (c : Char) : Bool := c = '"' || c = '\''

/-- Model of `value.replace(/^["']|["']$/g, '')` from `server/index.ts`:
remove one leading quote character if present, then one trailing quote
character if still present (on the single-quote-only string both alternatives
consume the same character, yielding the empty string, which this
tail-then-dropLast formulation reproduces). -/
def stripQuotes (l : List Char) : List Char :=
  let l1 := if l.head?.any isQuoteChar then l.tail else l
  if l1.getLast?.any isQuoteChar then l1.dropLast else l1

/-- Model of JS `str.split(sep)` for a single-character separator:
splits at every occurrence, keeping empty pieces, and returns `[l]` when the
separator does not occur. -/
def splitOnChar (sep : Char) : List Char → List (List Char)
  | [] => [[]]
  | c :: cs =>
    if c = sep then [] :: splitOnChar sep cs
    else
      match splitOnChar sep cs with
      | [] => [[c]]
      | l :: ls => (c :: l) :: ls

/-! ## Model of `JSON.parse` restricted to flat arrays of strings

The decoder calls `JSON.parse` on values that start with `[` (after turning
single quotes into double quotes).  The only values the blog code ever
serialises into that position are flat arrays of double-quoted strings
(`tags: ["a", "b"]`), so the model implements exactly the JSON grammar for
`[ "s1", "s2", ... ]` — brackets, commas, JSON whitespace, and quoted strings
containing neither `"`, `\` nor control characters — and reports failure on
everything else (escape sequences, numbers, nested arrays, objects).  Parse
failure models the `catch {}` in the source, which keeps the raw string. -/

/-- JSON whitespace. -/
def isJsonWs (c : Char) : Bool := c = ' ' || c = '\t' || c = '\n' || c = '\r'

/-- Skip leading JSON whitespace. -/
def skipWs (l : List Char) : List Char := l.dropWhile isJsonWs

/-- Parse the remainder of a JSON string after its opening quote; returns the
string contents and the input following the closing quote. -/
def parseStrBody : List Char → Option (List Char × List Char)
  | [] => none
  | c :: cs =>
    if c = '"' then some ([], cs)
    else if c = '\\' || decide (c.toNat < 32) then none
    else (parseStrBody cs).map (fun p => (c :: p.1, p.2))

/-- Parse one JSON string literal. -/
def parseJStr (l : List Char) : Option (List Char × List Char) :=
  if l.head? = some '"' then parseStrBody l.tail else none

/-- Parse a nonempty comma-separated sequence of JSON strings terminated by
`]`; the fuel argument bounds the number of elements. -/
def parseElems : Nat → List Char → Option (List (List Char) × List Char)
  | 0, _ => none
  | fuel + 1, l =>
    match parseJStr (skipWs l) with
    | none => none
    | some (s, rest) =>
      if (skipWs rest).head? = some ',' then
        (parseElems fuel (skipWs rest).tail).map (fun p => (s :: p.1, p.2))
      else if (skipWs rest).head? = some ']' then some ([s], (skipWs rest).tail)
      else none

/-- Model of `JSON.parse` on a full input expected to be a flat array of
strings; `none` models a thrown `SyntaxError` (and any non-string-array
result, which the blog data never produces). -/
def jsonParseArr (l : List Char) : Option (List (List Char)) :=
  if (skipWs l).head? = some '[' then
    let r := (skipWs l).tail
    if (skipWs r).head? = some ']' then
      if skipWs (skipWs r).tail = [] then some [] else none
    else
      match parseElems (r.length + 1) (skipWs r) with
      | some (items, rest) => if skipWs rest = [] then some items else none
      | none => none
  else none

/-! ## Frontmatter decoder (`GET /api/posts/:slug` and `GET /api/posts`) -/

/-- Value of one frontmatter field: either a cleaned-up string or the string
array produced by a successful `JSON.parse` of a bracketed value. -/
inductive FmValue where
  | str : List Char → FmValue
  | arr : List (List Char) → FmValue
deriving DecidableEq, Repr

/-- Normalisation `value.replace(/'/g, '"')` applied before `JSON.parse`. -/
def quoteNorm (c : Char) : Char := if c = '\'' then '"' else c

/-- Model of the per-value branch of the decoder: bracketed values go through
`JSON.parse` (after quote normalisation) and keep the raw string on failure;
all string results get one pair of surrounding quotes stripped. -/
def parseVal (raw : List Char) : FmValue :=
  if raw.head? = some '[' then
    match jsonParseArr (raw.map quoteNorm) with
    | some arr => .arr arr
    | none => .str (stripQuotes raw)
  else .str (stripQuotes raw)

/-- Model of the per-line decoder step: `const [key, ...rest] = line.split(':')`
followed by `if (key && rest.length)`.  A line with no colon, or whose text
before the first colon is empty, is skipped; otherwise the trimmed key is
bound to the parsed trimmed value. -/
def parseLine (l : List Char) : Option (List Char × FmValue) :=
  let key := l.takeWhile (fun c => c ≠ ':')
  if (':' ∈ l) ∧ key ≠ [] then
    some (trimStr key, parseVal (trimStr (l.drop (key.length + 1))))
  else none

/-- Search for the first occurrence of the closing marker `"\n---"`, the
non-greedy `[\s\S]*?\n---` of the source regexes: returns the text before the
marker and the text after it. -/
def splitClose : List Char → Option (List Char × List Char)
  | [] => none
  | c :: cs =>
    if (c :: cs).take 4 = ['\n', '-', '-', '-'] then some ([], cs.drop 3)
    else
      match splitClose cs with
      | some (pre, post) => some (c :: pre, post)
      | none => none

/-- Decoded frontmatter block: every `key: value` line in order.  The source
assigns into a `Record<string, any>`, so on (never-produced) duplicate keys
the last assignment wins; `fieldsGet` below implements that lookup. -/
def decodeFields (fm : List Char) : List (List Char × FmValue) :=
  (splitOnChar '\n' fm).filterMap parseLine

/-- Model of the document decoder in the `GET /api/posts/:slug` handler:
the match against regex `^---\n([\s\S]*?)\n---` for the field block and the
replacement of regex `^---\n[\s\S]*?\n---\n*` by the empty string for the
body.  When the opening or closing marker is missing both regexes fail,
giving an empty field mapping and the whole text as body. -/
def decodeDoc (text : List Char) : List (List Char × FmValue) × List Char :=
  if text.take 4 = ['-', '-', '-', '\n'] then
    match splitClose (text.drop 4) with
    | some (fm, post) => (decodeFields fm, post.dropWhile (fun c => c = '\n'))
    | none => ([], text)
  else ([], text)

/-- Last-assignment-wins lookup into a decoded field list, the observable
behaviour of the `Record<string, any>` the source builds. -/
def fieldsGet : List (List Char × FmValue) → List Char → Option FmValue
  | [], _ => none
  | (k', v) :: rest, k =>
    match fieldsGet rest k with
    | some r => some r
    | none => if k' = k then some v else none

/-! ## Frontmatter encoder (`POST /api/posts`) -/

/-- Model of `(tags || []).map(t => `"${t}"`).join(', ')`. -/
def tagsJoin : List (List Char) → List Char
  | [] => []
  | [t] => '"' :: (t ++ ['"'])
  | t :: t' :: ts => ('"' :: (t ++ ['"'])) ++ ',' :: ' ' :: tagsJoin (t' :: ts)

/-- Model of the markdown template written by the `POST /api/posts` handler.
`today` stands for `new Date().toISOString().split('T')[0]`; the handler
always stamps the current date and always writes `draft: false`. -/
def encodeFM (title description category : List Char) (tags : List (List Char))
    (today body : List Char) : List Char :=
  "---\n".data ++
  ("title: \"".data ++ title ++ "\"\n".data) ++
  ("description: \"".data ++ description ++ "\"\n".data) ++
  ("pubDate: ".data ++ today ++ "\n".data) ++
  ("category: ".data ++ category ++ "\n".data) ++
  ("tags: [".data ++ tagsJoin tags ++ "]\n".data) ++
  "draft: false\n".data ++
  "---\n".data ++
  "\n".data ++
  body

/-- Sanity check tying the structured encoder definition to the literal
template text of the source file. -/
theorem encodeFM_template :
    encodeFM "Hello".data "A post".data "tech".data ["x".data, "y".data]
      "2024-01-15".data "body text".data =
    ("---\ntitle: \"Hello\"\ndescription: \"A post\"\npubDate: 2024-01-15\ncategory: tech\ntags: [\"x\", \"y\"]\ndraft: false\n---\n\nbody text").data := by
  decide

/-! ## Field mappings and validity for the round trip -/

/-- A frontmatter field mapping with the six fields the template carries.
All values are strings except `tags`; `draft` is kept as the string the
decoder produces for it. -/
structure FmFields where
  title : List Char
  description : List Char
  pubDate : List Char
  category : List Char
  tags : List (List Char)
  draft : List Char
deriving DecidableEq, Repr

/-- The field list the decoder recovers from an encoded document, in template
order. -/
def FmFields.toFieldList (F : FmFields) : List (List Char × FmValue) :=
  [("title".data, .str F.title),
   ("description".data, .str F.description),
   ("pubDate".data, .str F.pubDate),
   ("category".data, .str F.category),
   ("tags".data, .arr F.tags),
   ("draft".data, .str F.draft)]

/-- Validity of a value serialised without quotes (`pubDate`, `category`):
no newline (it must stay on its line), stable under trimming, no surrounding
quote character to strip, and not starting with `[` (which would trigger the
array parse). -/
def ValidPlain (s : List Char) : Prop :=
  '\n' ∉ s ∧ trimLeft s = s ∧ trimRight s = s ∧ stripQuotes s = s ∧
    s.head? ≠ some '['

instance (s : List Char) : Decidable (ValidPlain s) := by
  unfold ValidPlain; infer_instance

/-- Validity of a value serialised inside double quotes (`title`,
`description`): it only must not contain a newline. -/
def ValidQuoted (s : List Char) : Prop := '\n' ∉ s

instance (s : List Char) : Decidable (ValidQuoted s) := by
  unfold ValidQuoted; infer_instance

/-- Validity of a single tag: no double quote, single quote or backslash and
no control character, so that its JSON serialisation parses back to itself
(single quotes are rewritten to double quotes before `JSON.parse`, hence the
single-quote exclusion). -/
def ValidTag (t : List Char) : Prop :=
  ∀ c ∈ t, c ≠ '"' ∧ c ≠ '\'' ∧ c ≠ '\\' ∧ 32 ≤ c.toNat

instance (t : List Char) : Decidable (ValidTag t) := by
  unfold ValidTag; infer_instance

/-- Validity of a whole field mapping for the encoder.  `draft` must be the
string `false` because the handler writes the literal `draft: false` for
every document it stores; `pubDate` is unconstrained because the encoder
ignores it and stamps the current date. -/
def ValidFields (F : FmFields) : Prop :=
  ValidQuoted F.title ∧ ValidQuoted F.description ∧ ValidPlain F.category ∧
    (∀ t ∈ F.tags, ValidTag t) ∧ F.draft = "false".data

instance (F : FmFields) : Decidable (ValidFields F) := by
  unfold ValidFields; infer_instance

/-! ## Lemmas: locating the closing marker -/

theorem splitClose_append (a b : List Char) (ha : '\n' ∉ a) :
    splitClose (a ++ b) = (splitClose b).map (fun p => (a ++ p.1, p.2)) := by
  induction a with
  | nil =>
    cases h : splitClose b with
    | none => simp [h]
    | some p => simp [h]
  | cons c cs ih =>
    have hc : c ≠ '\n' := by
      intro h; exact ha (h ▸ List.mem_cons_self c cs)
    have hcs : '\n' ∉ cs := fun h => ha (List.mem_cons_of_mem c h)
    have htake : (c :: (cs ++ b)).take 4 ≠ ['\n', '-', '-', '-'] := by
      simp only [List.take_succ_cons]
      intro h
      exact hc (List.cons_eq_cons.mp h).1
    rw [List.cons_append, splitClose, if_neg htake, ih hcs]
    cases h : splitClose b with
    | none => simp
    | some p => simp

theorem splitClose_cons_nl (b : List Char) (hb : b.take 3 ≠ ['-', '-', '-']) :
    splitClose ('\n' :: b) =
      (splitClose b).map (fun p => ('\n' :: p.1, p.2)) := by
  have htake : ('\n' :: b).take 4 ≠ ['\n', '-', '-', '-'] := by
    simp only [List.take_succ_cons]
    intro h
    exact hb (List.cons_eq_cons.mp h).2
  rw [splitClose, if_neg htake]
  cases h : splitClose b with
  | none => simp
  | some p => simp

theorem splitClose_marker (t : List Char) :
    splitClose ('\n' :: '-' :: '-' :: '-' :: t) = some ([], t) := by
  rw [splitClose]
  simp


/-! ## Lemmas: line splitting, trimming, quote stripping -/

theorem splitOnChar_ne_nil (sep : Char) (l : List Char) :
    splitOnChar sep l ≠ [] := by
  induction l with
  | nil => simp [splitOnChar]
  | cons c cs ih =>
    rw [splitOnChar]
    split
    · simp
    · cases h : splitOnChar sep cs with
      | nil => simp
      | cons x xs => simp

theorem splitOnChar_append (sep : Char) (a b : List Char) (l : List Char)
    (ls : List (List Char)) (ha : sep ∉ a) (hb : splitOnChar sep b = l :: ls) :
    splitOnChar sep (a ++ b) = (a ++ l) :: ls := by
  induction a with
  | nil => simpa using hb
  | cons c cs ih =>
    have hc : c ≠ sep := by
      intro h; exact ha (h ▸ List.mem_cons_self c cs)
    have hcs : sep ∉ cs := fun h => ha (List.mem_cons_of_mem c h)
    rw [List.cons_append, splitOnChar, if_neg hc, ih hcs]
    rfl

theorem splitOnChar_of_not_mem (sep : Char) (a : List Char) (ha : sep ∉ a) :
    splitOnChar sep a = [a] := by
  have := splitOnChar_append sep a [] [] [] ha (by simp [splitOnChar])
  simpa using this

theorem trimRight_last_not_ws (x : List Char) (c : Char) (hc : isWsChar c = false) :
    trimRight (x ++ [c]) = x ++ [c] := by
  unfold trimRight
  rw [List.reverse_append]
  simp [List.dropWhile_cons, hc]

theorem trimRight_nil : trimRight [] = [] := by rfl

theorem stripQuotes_dquotes (t : List Char) :
    stripQuotes ('"' :: (t ++ ['"'])) = t := by
  unfold stripQuotes
  simp [List.getLast?_concat, List.dropLast_concat, isQuoteChar]

theorem takeWhile_until_colon (k rest : List Char) (hk : ':' ∉ k) :
    (k ++ ':' :: rest).takeWhile (fun c => c ≠ ':') = k := by
  induction k with
  | nil => simp [List.takeWhile_cons]
  | cons c cs ih =>
    have hc : c ≠ ':' := by
      intro h; exact hk (h ▸ List.mem_cons_self c cs)
    have hcs : ':' ∉ cs := fun h => hk (List.mem_cons_of_mem c h)
    rw [List.cons_append, List.takeWhile_cons]
    simp [hc]
    simpa using ih hcs

theorem drop_key_colon (k rest : List Char) :
    (k ++ ':' :: rest).drop (k.length + 1) = rest := by
  have : k ++ ':' :: rest = (k ++ [':']) ++ rest := by simp
  rw [this]
  have hlen : (k ++ [':']).length = k.length + 1 := by simp
  rw [← hlen, List.drop_left]


/-! ## Lemmas: the JSON array model on encoder output -/

theorem skipWs_cons_of_ws (c : Char) (l : List Char) (h : isJsonWs c = true) :
    skipWs (c :: l) = skipWs l := by
  simp [skipWs, List.dropWhile_cons, h]

theorem skipWs_cons_of_not_ws (c : Char) (l : List Char) (h : isJsonWs c = false) :
    skipWs (c :: l) = c :: l := by
  simp [skipWs, List.dropWhile_cons, h]

theorem parseStrBody_closed (t rest : List Char) (ht : ValidTag t) :
    parseStrBody (t ++ '"' :: rest) = some (t, rest) := by
  induction t with
  | nil => simp [parseStrBody]
  | cons c cs ih =>
    obtain ⟨h1, _, h3, h4⟩ := ht c (List.mem_cons_self c cs)
    have hcs : ValidTag cs := fun x hx => ht x (List.mem_cons_of_mem c hx)
    rw [List.cons_append, parseStrBody]
    rw [if_neg h1, if_neg (by simp [h3]; omega)]
    rw [ih hcs]
    rfl

theorem parseJStr_quoted (t rest : List Char) (ht : ValidTag t) :
    parseJStr ('"' :: (t ++ '"' :: rest)) = some (t, rest) := by
  rw [parseJStr]
  simp only [List.head?_cons, List.tail_cons, if_pos rfl]
  exact parseStrBody_closed t rest ht

theorem parseElems_cons_ws (fuel : Nat) (c : Char) (l : List Char)
    (h : isJsonWs c = true) : parseElems fuel (c :: l) = parseElems fuel l := by
  cases fuel with
  | zero => rfl
  | succ f => rw [parseElems, parseElems, skipWs_cons_of_ws c l h]

theorem tagsJoin_cons_shape (t : List Char) (ts : List (List Char)) :
    ∃ x, tagsJoin (t :: ts) = '"' :: x := by
  cases ts with
  | nil => exact ⟨t ++ ['"'], rfl⟩
  | cons t' ts' => exact ⟨(t ++ ['"']) ++ ',' :: ' ' :: tagsJoin (t' :: ts'), rfl⟩

theorem parseElems_tagsJoin (ts : List (List Char)) (hne : ts ≠ [])
    (rest : List Char) (fuel : Nat) (hf : ts.length ≤ fuel)
    (hv : ∀ t ∈ ts, ValidTag t) :
    parseElems fuel (tagsJoin ts ++ ']' :: rest) = some (ts, rest) := by
  induction ts generalizing rest fuel with
  | nil => exact absurd rfl hne
  | cons t ts' ih =>
    have hvt : ValidTag t := hv t (List.mem_cons_self t ts')
    cases ts' with
    | nil =>
      obtain ⟨f, rfl⟩ : ∃ f, fuel = f + 1 := by
        cases fuel with
        | zero => simp at hf
        | succ f => exact ⟨f, rfl⟩
      have hshape : tagsJoin [t] ++ ']' :: rest = '"' :: (t ++ '"' :: ']' :: rest) := by
        show ('"' :: (t ++ ['"'])) ++ ']' :: rest = _
        simp
      rw [hshape, parseElems]
      rw [skipWs_cons_of_not_ws '"' _ (by rfl), parseJStr_quoted t (']' :: rest) hvt]
      simp [skipWs_cons_of_not_ws, isJsonWs]
    | cons t' ts'' =>
      obtain ⟨f, rfl⟩ : ∃ f, fuel = f + 1 := by
        cases fuel with
        | zero => simp at hf
        | succ f => exact ⟨f, rfl⟩
      have hshape : tagsJoin (t :: t' :: ts'') ++ ']' :: rest =
          '"' :: (t ++ '"' :: ',' :: ' ' :: (tagsJoin (t' :: ts'') ++ ']' :: rest)) := by
        show (('"' :: (t ++ ['"'])) ++ ',' :: ' ' :: tagsJoin (t' :: ts'')) ++ ']' :: rest = _
        simp
      rw [hshape, parseElems]
      rw [skipWs_cons_of_not_ws '"' _ (by rfl), parseJStr_quoted t _ hvt]
      have hstep : parseElems f (' ' :: (tagsJoin (t' :: ts'') ++ ']' :: rest)) =
          parseElems f (tagsJoin (t' :: ts'') ++ ']' :: rest) :=
        parseElems_cons_ws f ' ' _ (by rfl)
      have ihh := ih (by simp) rest f (by simpa using hf)
        (fun x hx => hv x (List.mem_cons_of_mem t hx))
      simp [skipWs_cons_of_not_ws, isJsonWs, hstep, ihh]

theorem tagsJoin_length_ge (ts : List (List Char)) :
    ts.length ≤ (tagsJoin ts).length := by
  induction ts with
  | nil => simp [tagsJoin]
  | cons t ts' ih =>
    cases ts' with
    | nil => simp [tagsJoin]
    | cons t' ts'' =>
      rw [tagsJoin]
      simp only [List.length_cons, List.length_append]
      simp at ih ⊢
      omega

theorem jsonParseArr_tagsJoin (tags : List (List Char))
    (hv : ∀ t ∈ tags, ValidTag t) :
    jsonParseArr ('[' :: (tagsJoin tags ++ [']'])) = some tags := by
  cases tags with
  | nil =>
    show jsonParseArr ['[', ']'] = some []
    rfl
  | cons t ts =>
    obtain ⟨x, hx⟩ := tagsJoin_cons_shape t ts
    have hr : tagsJoin (t :: ts) ++ [']'] = '"' :: (x ++ [']']) := by
      rw [hx]; rfl
    have hpe : parseElems (x.length + 3)
        ('"' :: (x ++ [']'])) = some (t :: ts, []) := by
      have h1 := parseElems_tagsJoin (t :: ts) (by simp) [] (x.length + 3) ?_ hv
      · rw [show tagsJoin (t :: ts) ++ ']' :: [] = '"' :: (x ++ [']']) from hr] at h1
        exact h1
      · have h2 : (t :: ts).length ≤ (tagsJoin (t :: ts)).length := tagsJoin_length_ge _
        have h3 : (tagsJoin (t :: ts)).length = x.length + 1 := by rw [hx]; simp
        omega
    rw [hr]
    unfold jsonParseArr
    simp [skipWs, List.dropWhile_cons, isJsonWs, hpe]


/-! ## Lemmas: per-line decoding of the encoder's field lines -/

theorem quoteNorm_map_id (l : List Char) (h : ∀ c ∈ l, c ≠ '\'') :
    l.map quoteNorm = l := by
  induction l with
  | nil => rfl
  | cons c cs ih =>
    have hc : c ≠ '\'' := h c (List.mem_cons_self c cs)
    rw [List.map_cons, ih (fun x hx => h x (List.mem_cons_of_mem c hx))]
    simp [quoteNorm, hc]

theorem tagsJoin_no_squote (tags : List (List Char))
    (hv : ∀ t ∈ tags, ValidTag t) : ∀ c ∈ tagsJoin tags, c ≠ '\'' := by
  induction tags with
  | nil => simp [tagsJoin]
  | cons t ts ih =>
    have hvt : ValidTag t := hv t (List.mem_cons_self t ts)
    have hts : ∀ u ∈ ts, ValidTag u := fun u hu => hv u (List.mem_cons_of_mem t hu)
    cases ts with
    | nil =>
      intro c hc
      rw [tagsJoin] at hc
      rcases List.mem_cons.mp hc with h | h
      · subst h; decide
      · rcases List.mem_append.mp h with h | h
        · exact (hvt c h).2.1
        · simp at h; subst h; decide
    | cons t' ts' =>
      intro c hc
      rw [tagsJoin] at hc
      rcases List.mem_append.mp hc with h | h
      · rcases List.mem_cons.mp h with h | h
        · subst h; decide
        · rcases List.mem_append.mp h with h | h
          · exact (hvt c h).2.1
          · simp at h; subst h; decide
      · rcases List.mem_cons.mp h with h | h
        · subst h; decide
        · rcases List.mem_cons.mp h with h | h
          · subst h; decide
          · exact ih hts c h

theorem parseVal_bracket (tags : List (List Char)) (hv : ∀ t ∈ tags, ValidTag t) :
    parseVal ('[' :: (tagsJoin tags ++ [']'])) = .arr tags := by
  rw [parseVal]
  simp only [List.head?_cons, if_true]
  have hmap : ('[' :: (tagsJoin tags ++ [']'])).map quoteNorm =
      '[' :: (tagsJoin tags ++ [']']) := by
    refine quoteNorm_map_id _ ?_
    intro c hc
    rcases List.mem_cons.mp hc with h | h
    · subst h; decide
    · rcases List.mem_append.mp h with h | h
      · exact tagsJoin_no_squote tags hv c h
      · simp at h; subst h; decide
  rw [hmap, jsonParseArr_tagsJoin tags hv]

theorem parseLine_quotedKV (k t : List Char) (hk1 : ':' ∉ k) (hk2 : k ≠ [])
    (hk3 : trimStr k = k) :
    parseLine (k ++ ':' :: ' ' :: '"' :: (t ++ ['"'])) = some (k, .str t) := by
  rw [parseLine]
  have hkey : (k ++ ':' :: ' ' :: '"' :: (t ++ ['"'])).takeWhile (fun c => c ≠ ':') = k :=
    takeWhile_until_colon k _ hk1
  simp only [hkey]
  rw [if_pos ⟨List.mem_append_right k (List.mem_cons_self ':' _), hk2⟩]
  rw [drop_key_colon k _]
  have htrim : trimStr (' ' :: '"' :: (t ++ ['"'])) = '"' :: (t ++ ['"']) := by
    rw [trimStr]
    rw [show trimLeft (' ' :: '"' :: (t ++ ['"'])) = '"' :: (t ++ ['"']) from by
      simp [trimLeft, List.dropWhile_cons, isWsChar]]
    rw [show ('"' :: (t ++ ['"'])) = ('"' :: t) ++ ['"'] from by simp]
    exact trimRight_last_not_ws ('"' :: t) '"' (by rfl)
  rw [htrim, hk3]
  have hpv : parseVal ('"' :: (t ++ ['"'])) = .str t := by
    rw [parseVal, if_neg (by simp), stripQuotes_dquotes]
  rw [hpv]

theorem parseLine_plainKV (k v : List Char) (hk1 : ':' ∉ k) (hk2 : k ≠ [])
    (hk3 : trimStr k = k) (hv : ValidPlain v) :
    parseLine (k ++ ':' :: ' ' :: v) = some (k, .str v) := by
  obtain ⟨hnl, hL, hR, hsq, hhead⟩ := hv
  rw [parseLine]
  have hkey : (k ++ ':' :: ' ' :: v).takeWhile (fun c => c ≠ ':') = k :=
    takeWhile_until_colon k _ hk1
  simp only [hkey]
  rw [if_pos ⟨List.mem_append_right k (List.mem_cons_self ':' _), hk2⟩]
  rw [drop_key_colon k _]
  have htrim : trimStr (' ' :: v) = v := by
    rw [trimStr]
    rw [show trimLeft (' ' :: v) = trimLeft v from by
      simp [trimLeft, List.dropWhile_cons, isWsChar]]
    rw [show trimLeft v = v from hL, hR]
  rw [htrim, hk3]
  have hpv : parseVal v = .str v := by
    rw [parseVal, if_neg hhead, hsq]
  rw [hpv]

theorem parseLine_tagsKV (k : List Char) (tags : List (List Char)) (hk1 : ':' ∉ k)
    (hk2 : k ≠ []) (hk3 : trimStr k = k) (hv : ∀ t ∈ tags, ValidTag t) :
    parseLine (k ++ ':' :: ' ' :: '[' :: (tagsJoin tags ++ [']'])) =
      some (k, .arr tags) := by
  rw [parseLine]
  have hkey : (k ++ ':' :: ' ' :: '[' :: (tagsJoin tags ++ [']'])).takeWhile
      (fun c => c ≠ ':') = k := takeWhile_until_colon k _ hk1
  simp only [hkey]
  rw [if_pos ⟨List.mem_append_right k (List.mem_cons_self ':' _), hk2⟩]
  rw [drop_key_colon k _]
  have htrim : trimStr (' ' :: '[' :: (tagsJoin tags ++ [']'])) =
      '[' :: (tagsJoin tags ++ [']']) := by
    rw [trimStr]
    rw [show trimLeft (' ' :: '[' :: (tagsJoin tags ++ [']'])) =
        '[' :: (tagsJoin tags ++ [']']) from by
      simp [trimLeft, List.dropWhile_cons, isWsChar]]
    rw [show ('[' :: (tagsJoin tags ++ [']'])) = ('[' :: tagsJoin tags) ++ [']'] from by
      simp]
    exact trimRight_last_not_ws ('[' :: tagsJoin tags) ']' (by rfl)
  rw [htrim, hk3, parseVal_bracket tags hv]


/-! ## Lemmas: decomposing an encoded document -/

/-- The six field lines of an encoded document, joined by newlines; this is
exactly the text the decoder's frontmatter regex captures. -/
def fmBlock (F : FmFields) (today : List Char) : List Char :=
  ("title: \"".data ++ (F.title ++ ['"'])) ++ '\n' ::
  (("description: \"".data ++ (F.description ++ ['"'])) ++ '\n' ::
  (("pubDate: ".data ++ today) ++ '\n' ::
  (("category: ".data ++ F.category) ++ '\n' ::
  (("tags: [".data ++ (tagsJoin F.tags ++ [']'])) ++ '\n' ::
  "draft: false".data))))

theorem encodeFM_decomp (F : FmFields) (today body : List Char) :
    encodeFM F.title F.description F.category F.tags today body =
      '-' :: '-' :: '-' :: '\n' ::
        (fmBlock F today ++ '\n' :: '-' :: '-' :: '-' :: '\n' :: '\n' :: body) := by
  simp only [encodeFM, fmBlock, List.append_assoc, List.cons_append, List.nil_append]

theorem char_not_mem_append (c : Char) (a b : List Char) (ha : c ∉ a) (hb : c ∉ b) :
    c ∉ a ++ b :=
  fun h => (List.mem_append.mp h).elim ha hb

theorem tagsJoin_no_nl (tags : List (List Char))
    (hv : ∀ t ∈ tags, ValidTag t) : '\n' ∉ tagsJoin tags := by
  induction tags with
  | nil => simp [tagsJoin]
  | cons t ts ih =>
    have hvt : ValidTag t := hv t (List.mem_cons_self t ts)
    have hts : ∀ u ∈ ts, ValidTag u := fun u hu => hv u (List.mem_cons_of_mem t hu)
    have htag : '\n' ∉ t := by
      intro h
      have := (hvt '\n' h).2.2.2
      simp at this
    cases ts with
    | nil =>
      intro hc
      rw [tagsJoin] at hc
      rcases List.mem_cons.mp hc with h | h
      · exact absurd h.symm (by decide)
      · rcases List.mem_append.mp h with h | h
        · exact htag h
        · simp at h
    | cons t' ts' =>
      intro hc
      rw [tagsJoin] at hc
      rcases List.mem_append.mp hc with h | h
      · rcases List.mem_cons.mp h with h | h
        · exact absurd h.symm (by decide)
        · rcases List.mem_append.mp h with h | h
          · exact htag h
          · simp at h
      · rcases List.mem_cons.mp h with h | h
        · exact absurd h.symm (by decide)
        · rcases List.mem_cons.mp h with h | h
          · exact absurd h.symm (by decide)
          · exact ih hts h

/-- Newline-join of a list of lines, matching the shape of `fmBlock`. -/
def joinNl : List (List Char) → List Char
  | [] => []
  | [l] => l
  | l :: l' :: ls => l ++ '\n' :: joinNl (l' :: ls)

theorem head?_append_of_ne_nil (b x : List Char) (hb : b ≠ []) :
    (b ++ x).head? = b.head? := by
  cases b with
  | nil => exact absurd rfl hb
  | cons c cs => rfl

theorem take3_ne_dashes (l : List Char) (h : l.head? ≠ some '-') :
    l.take 3 ≠ ['-', '-', '-'] := by
  cases l with
  | nil => simp
  | cons c cs =>
    intro hc
    apply h
    rw [List.take_succ_cons] at hc
    rw [List.head?_cons, (List.cons_eq_cons.mp hc).1]

theorem joinNl_head? (b : List Char) (ls : List (List Char)) (hb : b ≠ []) :
    (joinNl (b :: ls)).head? = b.head? := by
  cases ls with
  | nil => rfl
  | cons l' ls' => exact head?_append_of_ne_nil b _ hb

theorem splitClose_joinNl (ls : List (List Char)) (tail : List Char)
    (h1 : ∀ l ∈ ls, '\n' ∉ l) (h2 : ∀ l ∈ ls, l ≠ [])
    (h3 : ∀ l ∈ ls, l.head? ≠ some '-') :
    splitClose (joinNl ls ++ '\n' :: '-' :: '-' :: '-' :: tail) =
      some (joinNl ls, tail) := by
  induction ls with
  | nil =>
    rw [show joinNl [] = [] from rfl, List.nil_append, splitClose_marker]
  | cons a ls' ih =>
    have ha : '\n' ∉ a := h1 a (List.mem_cons_self a ls')
    cases ls' with
    | nil =>
      rw [show joinNl [a] = a from rfl, splitClose_append _ _ ha, splitClose_marker]
      simp
    | cons b ls'' =>
      have hb : b ≠ [] := h2 b (List.mem_cons_of_mem a (List.mem_cons_self b ls''))
      have hbh : b.head? ≠ some '-' :=
        h3 b (List.mem_cons_of_mem a (List.mem_cons_self b ls''))
      have hstep : joinNl (a :: b :: ls'') ++ '\n' :: '-' :: '-' :: '-' :: tail =
          a ++ '\n' :: (joinNl (b :: ls'') ++ '\n' :: '-' :: '-' :: '-' :: tail) := by
        rw [show joinNl (a :: b :: ls'') = a ++ '\n' :: joinNl (b :: ls'') from rfl]
        simp
      rw [hstep, splitClose_append _ _ ha]
      have hjoin : (joinNl (b :: ls'') ++ '\n' :: '-' :: '-' :: '-' :: tail).head? ≠
          some '-' := by
        rw [head?_append_of_ne_nil _ _ (by
          cases ls'' with
          | nil => exact hb
          | cons c cs =>
            rw [show joinNl (b :: c :: cs) = b ++ '\n' :: joinNl (c :: cs) from rfl]
            simp [hb])]
        rw [joinNl_head? b ls'' hb]
        exact hbh
      rw [splitClose_cons_nl _ (take3_ne_dashes _ hjoin)]
      rw [ih (fun l hl => h1 l (List.mem_cons_of_mem a hl))
        (fun l hl => h2 l (List.mem_cons_of_mem a hl))
        (fun l hl => h3 l (List.mem_cons_of_mem a hl))]
      rfl

theorem fmBlock_eq_joinNl (F : FmFields) (today : List Char) :
    fmBlock F today =
      joinNl ["title: \"".data ++ (F.title ++ ['"']),
              "description: \"".data ++ (F.description ++ ['"']),
              "pubDate: ".data ++ today,
              "category: ".data ++ F.category,
              "tags: [".data ++ (tagsJoin F.tags ++ [']']),
              "draft: false".data] := rfl

theorem splitClose_fmBlock (F : FmFields) (today : List Char) (tail : List Char)
    (hnt : '\n' ∉ F.title) (hnd : '\n' ∉ F.description) (hnp : '\n' ∉ today)
    (hntags : ∀ t ∈ F.tags, ValidTag t) (hnc : '\n' ∉ F.category) :
    splitClose (fmBlock F today ++ '\n' :: '-' :: '-' :: '-' :: tail) =
      some (fmBlock F today, tail) := by
  have hL1 : '\n' ∉ "title: \"".data ++ (F.title ++ ['"']) :=
    char_not_mem_append _ _ _ (by decide)
      (char_not_mem_append _ _ _ hnt (by decide))
  have hL2 : '\n' ∉ "description: \"".data ++ (F.description ++ ['"']) :=
    char_not_mem_append _ _ _ (by decide)
      (char_not_mem_append _ _ _ hnd (by decide))
  have hL3 : '\n' ∉ "pubDate: ".data ++ today :=
    char_not_mem_append _ _ _ (by decide) hnp
  have hL4 : '\n' ∉ "category: ".data ++ F.category :=
    char_not_mem_append _ _ _ (by decide) hnc
  have hL5 : '\n' ∉ "tags: [".data ++ (tagsJoin F.tags ++ [']']) :=
    char_not_mem_append _ _ _ (by decide)
      (char_not_mem_append _ _ _ (tagsJoin_no_nl _ hntags) (by decide))
  have hL6 : '\n' ∉ ("draft: false".data : List Char) := by decide
  rw [fmBlock_eq_joinNl]
  apply splitClose_joinNl
  · intro l hl
    simp only [List.mem_cons, List.not_mem_nil, or_false] at hl
    rcases hl with rfl | rfl | rfl | rfl | rfl | rfl
    exacts [hL1, hL2, hL3, hL4, hL5, hL6]
  · intro l hl
    simp only [List.mem_cons, List.not_mem_nil, or_false] at hl
    rcases hl with rfl | rfl | rfl | rfl | rfl | rfl <;> simp
  · intro l hl
    simp only [List.mem_cons, List.not_mem_nil, or_false] at hl
    rcases hl with rfl | rfl | rfl | rfl | rfl | rfl <;> first | decide | simp


theorem splitOnChar_nl_cons (j : List Char) :
    splitOnChar '\n' ('\n' :: j) = [] :: splitOnChar '\n' j := by
  rw [splitOnChar, if_pos rfl]

theorem splitOnChar_joinNl (ls : List (List Char)) (hne : ls ≠ [])
    (h1 : ∀ l ∈ ls, '\n' ∉ l) :
    splitOnChar '\n' (joinNl ls) = ls := by
  induction ls with
  | nil => exact absurd rfl hne
  | cons a ls' ih =>
    have ha : '\n' ∉ a := h1 a (List.mem_cons_self a ls')
    cases ls' with
    | nil => exact splitOnChar_of_not_mem '\n' a ha
    | cons b ls'' =>
      rw [show joinNl (a :: b :: ls'') = a ++ '\n' :: joinNl (b :: ls'') from rfl]
      rw [splitOnChar_append '\n' a ('\n' :: joinNl (b :: ls'')) []
        (splitOnChar '\n' (joinNl (b :: ls''))) ha (splitOnChar_nl_cons _)]
      rw [ih (by simp) (fun l hl => h1 l (List.mem_cons_of_mem a hl))]
      simp

theorem decodeFields_fmBlock (F : FmFields) (today : List Char)
    (hT : '\n' ∉ F.title) (hD : '\n' ∉ F.description)
    (hC : ValidPlain F.category) (hp : ValidPlain today)
    (hTags : ∀ t ∈ F.tags, ValidTag t) :
    decodeFields (fmBlock F today) =
      [("title".data, .str F.title),
       ("description".data, .str F.description),
       ("pubDate".data, .str today),
       ("category".data, .str F.category),
       ("tags".data, .arr F.tags),
       ("draft".data, .str "false".data)] := by
  have e1 : parseLine ("title: \"".data ++ (F.title ++ ['"'])) =
      some ("title".data, FmValue.str F.title) :=
    parseLine_quotedKV "title".data F.title (by decide) (by decide) (by decide)
  have e2 : parseLine ("description: \"".data ++ (F.description ++ ['"'])) =
      some ("description".data, FmValue.str F.description) :=
    parseLine_quotedKV "description".data F.description (by decide) (by decide)
      (by decide)
  have e3 : parseLine ("pubDate: ".data ++ today) =
      some ("pubDate".data, FmValue.str today) :=
    parseLine_plainKV "pubDate".data today (by decide) (by decide) (by decide) hp
  have e4 : parseLine ("category: ".data ++ F.category) =
      some ("category".data, FmValue.str F.category) :=
    parseLine_plainKV "category".data F.category (by decide) (by decide)
      (by decide) hC
  have e5 : parseLine ("tags: [".data ++ (tagsJoin F.tags ++ [']'])) =
      some ("tags".data, FmValue.arr F.tags) :=
    parseLine_tagsKV "tags".data F.tags (by decide) (by decide) (by decide) hTags
  have e6 : parseLine ("draft: false".data) =
      some ("draft".data, FmValue.str "false".data) := by decide
  rw [decodeFields, fmBlock_eq_joinNl]
  rw [splitOnChar_joinNl _ (by simp) ?_]
  · simp only [List.filterMap_cons, e1, e2, e3, e4, e5, e6, List.filterMap_nil]
  · intro l hl
    simp only [List.mem_cons, List.not_mem_nil, or_false] at hl
    have hL1 : '\n' ∉ "title: \"".data ++ (F.title ++ ['"']) :=
      char_not_mem_append _ _ _ (by decide)
        (char_not_mem_append _ _ _ hT (by decide))
    have hL2 : '\n' ∉ "description: \"".data ++ (F.description ++ ['"']) :=
      char_not_mem_append _ _ _ (by decide)
        (char_not_mem_append _ _ _ hD (by decide))
    have hL3 : '\n' ∉ "pubDate: ".data ++ today :=
      char_not_mem_append _ _ _ (by decide) hp.1
    have hL4 : '\n' ∉ "category: ".data ++ F.category :=
      char_not_mem_append _ _ _ (by decide) hC.1
    have hL5 : '\n' ∉ "tags: [".data ++ (tagsJoin F.tags ++ [']']) :=
      char_not_mem_append _ _ _ (by decide)
        (char_not_mem_append _ _ _ (tagsJoin_no_nl _ hTags) (by decide))
    rcases hl with rfl | rfl | rfl | rfl | rfl | rfl
    exacts [hL1, hL2, hL3, hL4, hL5, by decide]

theorem dropNl_body (B : List Char) (hB : B.head? ≠ some '\n') :
    ('\n' :: '\n' :: B).dropWhile (fun c => c = '\n') = B := by
  cases B with
  | nil => rfl
  | cons c bs =>
    have hc : c ≠ '\n' := by
      intro h; exact hB (by rw [List.head?_cons, h])
    simp [List.dropWhile_cons, hc]

/-- Core round-trip fact: decoding an encoded document recovers the field
mapping (with `pubDate` stamped to the encode-time date and `draft` forced to
the string `false`) and the body verbatim. -/
theorem fm_roundtrip (F : FmFields) (today B : List Char) (hF : ValidFields F)
    (ht : ValidPlain today) (hB : B.head? ≠ some '\n') :
    decodeDoc (encodeFM F.title F.description F.category F.tags today B) =
      (({ F with pubDate := today } : FmFields).toFieldList, B) := by
  obtain ⟨hT, hD, hC, hTags, hDraft⟩ := hF
  rw [encodeFM_decomp, decodeDoc]
  rw [if_pos (by simp [List.take_succ_cons])]
  simp only [List.drop_succ_cons, List.drop_zero]
  rw [splitClose_fmBlock F today ('\n' :: '\n' :: B) hT hD ht.1 hTags hC.1]
  simp only []
  rw [decodeFields_fmBlock F today hT hD hC ht hTags, dropNl_body B hB]
  simp [FmFields.toFieldList, hDraft]


/-- Claim C1 (frontmatter codec round-trip): for every valid field mapping F
(title, description, pubDate, category, tags, draft) and body B, decoding
the text produced by encoding F and B yields the field mapping F' and body B,
where F' equals F except that pubDate is replaced by the encode-time date; in
particular the draft, title, description, category and tags fields survive
the round trip unchanged.  Validity requires: title and description contain
no newline; category and the encode-time date are trim-stable, quote-free at
their ends, newline-free and do not start with a bracket; tags contain no
quote, backslash or control character; draft is the string `false` (the
encoder writes the literal `draft: false` for every document); and the body
does not start with a newline (the decoder's body regex also swallows
leading newlines). -/
theorem C1_frontmatter_roundtrip (F : FmFields) (today B : List Char)
    (hF : ValidFields F) (ht : ValidPlain today) (hB : B.head? ≠ some '\n') :
    decodeDoc (encodeFM F.title F.description F.category F.tags today B) =
      (({ F with pubDate := today } : FmFields).toFieldList, B) :=
  fm_roundtrip F today B hF ht hB

/-- Witness for C1 at a concrete field mapping, date and body. -/
theorem C1_frontmatter_roundtrip_witness :
    decodeDoc (encodeFM "Hello".data "A post".data "tech".data
        ["x".data, "y z".data] "2024-01-15".data "body".data) =
      ([("title".data, .str "Hello".data),
        ("description".data, .str "A post".data),
        ("pubDate".data, .str "2024-01-15".data),
        ("category".data, .str "tech".data),
        ("tags".data, .arr ["x".data, "y z".data]),
        ("draft".data, .str "false".data)], "body".data) :=
  C1_frontmatter_roundtrip
    ⟨"Hello".data, "A post".data, "2020-01-01".data, "tech".data,
      ["x".data, "y z".data], "false".data⟩
    "2024-01-15".data "body".data (by decide) (by decide) (by decide)


/-! ## Slug generator (`generateSlug` in `server/index.ts`) -/

/-- Model of `String.prototype.toLowerCase` via `Char.toLower` (ASCII
lowering; the slug alphabet below only retains ASCII and CJK characters, and
on those the two aggree character-for-character). -/
def jsLower (c : Char) : Char := c.toLower

/-- Characters retained by the slug regex class `[a-z0-9一-龥]`
(applied after lowering). -/
def isSlugChar (c : Char) : Bool :=
  ('a' ≤ c && c ≤ 'z') || ('0' ≤ c && c ≤ '9') ||
    ('一' ≤ c && c ≤ '龥')

/-- Model of `replace(/[^a-z0-9一-龥]+/g, '-')`: every maximal run of
non-slug characters becomes a single hyphen.  The boolean flag records
whether the previous character belonged to a non-slug run that has already
emitted its hyphen. -/
def collapseAux : Bool → List Char → List Char
  | _, [] => []
  | inRun, c :: cs =>
    if isSlugChar c then c :: collapseAux false cs
    else if inRun then collapseAux true cs
    else '-' :: collapseAux true cs

/-- Run-collapsing replacement, starting outside any run. -/
def collapseRuns (l : List Char) : List Char := collapseAux false l

/-- Model of `replace(/^-|-$/g, '')`: drop one leading and one trailing
hyphen (the same global-regex shape as the quote strip). -/
def stripEdgeHyphens (l : List Char) : List Char :=
  let l1 := if l.head? = some '-' then l.tail else l
  if l1.getLast? = some '-' then l1.dropLast else l1

/-- Model of `generateSlug` from `server/index.ts`:
lower-case, collapse non-slug runs to single hyphens, strip edge hyphens,
and fall back to the literal `untitled` on an empty result (the JS
`|| 'untitled'` on the empty, hence falsy, string). -/
def generateSlug (title : List Char) : List Char :=
  let s := stripEdgeHyphens (collapseRuns (title.map jsLower))
  if s = [] then "untitled".data else s

/-- No two adjacent hyphens. -/
def noAdjHyphen : List Char → Bool
  | [] => true
  | [_] => true
  | a :: b :: rest => !(a = '-' && b = '-') && noAdjHyphen (b :: rest)

theorem noAdjHyphen_cons (c : Char) (l : List Char) (hc : c ≠ '-')
    (hl : noAdjHyphen l = true) : noAdjHyphen (c :: l) = true := by
  cases l with
  | nil => rfl
  | cons b bs =>
    rw [noAdjHyphen]
    simp [hc, hl]

theorem noAdjHyphen_cons_hyphen (l : List Char) (hh : l.head? ≠ some '-')
    (hl : noAdjHyphen l = true) : noAdjHyphen ('-' :: l) = true := by
  cases l with
  | nil => rfl
  | cons b bs =>
    have hb : b ≠ '-' := by
      intro h; exact hh (by rw [List.head?_cons, h])
    rw [noAdjHyphen]
    simp [hb, hl]

theorem noAdjHyphen_tail (c : Char) (l : List Char)
    (h : noAdjHyphen (c :: l) = true) : noAdjHyphen l = true := by
  cases l with
  | nil => rfl
  | cons b bs =>
    rw [noAdjHyphen] at h
    simp only [Bool.and_eq_true] at h
    exact h.2

theorem slugChar_ne_hyphen (c : Char) (h : isSlugChar c = true) : c ≠ '-' := by
  intro hc
  subst hc
  simp [isSlugChar] at h

theorem collapseAux_true_head (l : List Char) :
    (collapseAux true l).head? ≠ some '-' := by
  induction l with
  | nil => simp [collapseAux]
  | cons c cs ih =>
    rw [collapseAux]
    by_cases hc : isSlugChar c = true
    · rw [if_pos hc]
      intro h
      rw [List.head?_cons] at h
      exact slugChar_ne_hyphen c hc (Option.some.inj h)
    · rw [if_neg hc, if_pos rfl]
      exact ih

theorem collapseAux_noAdj (l : List Char) :
    ∀ b, noAdjHyphen (collapseAux b l) = true := by
  induction l with
  | nil => intro b; rfl
  | cons c cs ih =>
    intro b
    rw [collapseAux]
    by_cases hc : isSlugChar c = true
    · rw [if_pos hc]
      exact noAdjHyphen_cons c _ (slugChar_ne_hyphen c hc) (ih false)
    · rw [if_neg hc]
      cases b with
      | true => rw [if_pos rfl]; exact ih true
      | false =>
        rw [if_neg (by simp)]
        exact noAdjHyphen_cons_hyphen _ (collapseAux_true_head cs) (ih true)

theorem collapseAux_chars (l : List Char) :
    ∀ b c, c ∈ collapseAux b l → isSlugChar c = true ∨ c = '-' := by
  induction l with
  | nil => intro b c h; simp [collapseAux] at h
  | cons x xs ih =>
    intro b c h
    rw [collapseAux] at h
    by_cases hx : isSlugChar x = true
    · rw [if_pos hx] at h
      rcases List.mem_cons.mp h with h | h
      · subst h; exact Or.inl hx
      · exact ih false c h
    · rw [if_neg hx] at h
      cases b with
      | true => rw [if_pos rfl] at h; exact ih true c h
      | false =>
        rw [if_neg (by simp)] at h
        rcases List.mem_cons.mp h with h | h
        · subst h; exact Or.inr rfl
        · exact ih true c h


theorem noAdjHyphen_cons_cons (a b : Char) (r : List Char) :
    noAdjHyphen (a :: b :: r) = true ↔
      ¬(a = '-' ∧ b = '-') ∧ noAdjHyphen (b :: r) = true := by
  rw [noAdjHyphen]
  simp [Bool.and_eq_true]
  tauto

theorem noAdjHyphen_dropLast (l : List Char) (h : noAdjHyphen l = true) :
    noAdjHyphen l.dropLast = true := by
  induction l with
  | nil => rfl
  | cons a l' ih =>
    cases l' with
    | nil => rfl
    | cons b r =>
      obtain ⟨hpair, hrest⟩ := (noAdjHyphen_cons_cons a b r).mp h
      have ihr := ih hrest
      rw [show (a :: b :: r).dropLast = a :: (b :: r).dropLast from rfl]
      cases r with
      | nil => rfl
      | cons r1 r' =>
        rw [show (b :: r1 :: r').dropLast = b :: (r1 :: r').dropLast from rfl] at ihr ⊢
        exact (noAdjHyphen_cons_cons a b _).mpr ⟨hpair, ihr⟩

theorem head?_dropLast_ne (l : List Char) (x : Char) (h : l.head? ≠ some x) :
    (l.dropLast).head? ≠ some x := by
  cases l with
  | nil => simp
  | cons a l' =>
    cases l' with
    | nil => simp
    | cons b r =>
      rw [show (a :: b :: r).dropLast = a :: (b :: r).dropLast from rfl]
      simpa using h

theorem getLast?_dropLast_noAdj (l : List Char) (h : noAdjHyphen l = true)
    (hl : l.getLast? = some '-') : (l.dropLast).getLast? ≠ some '-' := by
  induction l with
  | nil => simp at hl
  | cons a l' ih =>
    cases l' with
    | nil =>
      simp
    | cons b r =>
      obtain ⟨hpair, hrest⟩ := (noAdjHyphen_cons_cons a b r).mp h
      rw [List.getLast?_cons_cons] at hl
      rw [show (a :: b :: r).dropLast = a :: (b :: r).dropLast from rfl]
      cases r with
      | nil =>
        have hb : b = '-' := by simpa using hl
        have ha : a ≠ '-' := fun hc => hpair ⟨hc, hb⟩
        simpa using ha
      | cons r1 r' =>
        have ihr := ih hrest hl
        rw [show (b :: r1 :: r').dropLast = b :: (r1 :: r').dropLast from rfl] at ihr ⊢
        rw [List.getLast?_cons_cons]
        exact ihr

theorem noAdjHyphen_head_tail (c : Char) (cs : List Char)
    (h : noAdjHyphen (c :: cs) = true) (hc : c = '-') : cs.head? ≠ some '-' := by
  cases cs with
  | nil => simp
  | cons b r =>
    obtain ⟨hpair, _⟩ := (noAdjHyphen_cons_cons c b r).mp h
    intro hb
    exact hpair ⟨hc, by simpa using hb⟩

theorem stripEdgeHyphens_head (l : List Char) (h : noAdjHyphen l = true) :
    (stripEdgeHyphens l).head? ≠ some '-' := by
  rw [stripEdgeHyphens]
  by_cases h1 : l.head? = some '-'
  · rw [if_pos h1]
    have hl1 : l.tail.head? ≠ some '-' := by
      cases l with
      | nil => simp
      | cons c cs =>
        have hc : c = '-' := by simpa using h1
        exact noAdjHyphen_head_tail c cs h hc
    split
    · exact head?_dropLast_ne _ _ hl1
    · exact hl1
  · rw [if_neg h1]
    split
    · exact head?_dropLast_ne _ _ h1
    · exact h1

theorem noAdjHyphen_tail' (l : List Char) (h : noAdjHyphen l = true) :
    noAdjHyphen l.tail = true := by
  cases l with
  | nil => rfl
  | cons c cs => exact noAdjHyphen_tail c cs h

theorem stripEdgeHyphens_getLast (l : List Char) (h : noAdjHyphen l = true) :
    (stripEdgeHyphens l).getLast? ≠ some '-' := by
  rw [stripEdgeHyphens]
  have key : ∀ m : List Char, noAdjHyphen m = true →
      (if m.getLast? = some '-' then m.dropLast else m).getLast? ≠ some '-' := by
    intro m hm
    by_cases h2 : m.getLast? = some '-'
    · rw [if_pos h2]
      exact getLast?_dropLast_noAdj m hm h2
    · rw [if_neg h2]
      exact h2
  by_cases h1 : l.head? = some '-'
  · rw [if_pos h1]
    exact key l.tail (noAdjHyphen_tail' l h)
  · rw [if_neg h1]
    exact key l h

theorem noAdjHyphen_stripEdgeHyphens (l : List Char) (h : noAdjHyphen l = true) :
    noAdjHyphen (stripEdgeHyphens l) = true := by
  rw [stripEdgeHyphens]
  have key : ∀ m : List Char, noAdjHyphen m = true →
      noAdjHyphen (if m.getLast? = some '-' then m.dropLast else m) = true := by
    intro m hm
    split
    · exact noAdjHyphen_dropLast m hm
    · exact hm
  by_cases h1 : l.head? = some '-'
  · rw [if_pos h1]
    exact key l.tail (noAdjHyphen_tail' l h)
  · rw [if_neg h1]
    exact key l h

theorem mem_stripEdgeHyphens (l : List Char) (c : Char)
    (h : c ∈ stripEdgeHyphens l) : c ∈ l := by
  rw [stripEdgeHyphens] at h
  have key : ∀ m : List Char,
      c ∈ (if m.getLast? = some '-' then m.dropLast else m) → c ∈ m := by
    intro m hm
    split at hm
    · exact (List.dropLast_sublist m).subset hm
    · exact hm
  by_cases h1 : l.head? = some '-'
  · rw [if_pos h1] at h
    exact (List.tail_sublist l).subset (key _ h)
  · rw [if_neg h1] at h
    exact key _ h


/-- Claim C5 (slug generation): `generateSlug` lower-cases the input,
replaces every maximal run of characters that are not ASCII letters, digits
or CJK ideographs with a single hyphen (so the output consists of slug
characters and isolated hyphens, never two adjacent hyphens), strips any
leading or trailing hyphen (the output starts and ends with a non-hyphen),
returns the literal `untitled` when the result is empty (so the output is
never empty), and is pure and deterministic, with
`generateSlug "" = "untitled"` and
`generateSlug "Hello, World!" = "hello-world"`. -/
theorem C5_generateSlug_spec :
    generateSlug "".data = "untitled".data ∧
    generateSlug "Hello, World!".data = "hello-world".data ∧
    (∀ t u : List Char, t = u → generateSlug t = generateSlug u) ∧
    (∀ t : List Char, generateSlug t ≠ [] ∧
      (∀ c ∈ generateSlug t, isSlugChar c = true ∨ c = '-') ∧
      noAdjHyphen (generateSlug t) = true ∧
      (generateSlug t).head? ≠ some '-' ∧
      (generateSlug t).getLast? ≠ some '-') := by
  refine ⟨by decide, by decide, fun t u h => h ▸ rfl, ?_⟩
  intro t
  by_cases hs : stripEdgeHyphens (collapseRuns (t.map jsLower)) = []
  · have hgen : generateSlug t = "untitled".data := by
      simp only [generateSlug]
      rw [if_pos hs]
    rw [hgen]
    refine ⟨by decide, by decide, by decide, by decide, by decide⟩
  · have hgen : generateSlug t = stripEdgeHyphens (collapseRuns (t.map jsLower)) := by
      simp only [generateSlug]
      rw [if_neg hs]
    have hnoadj : noAdjHyphen (collapseRuns (t.map jsLower)) = true :=
      collapseAux_noAdj (t.map jsLower) false
    rw [hgen]
    refine ⟨hs, ?_, noAdjHyphen_stripEdgeHyphens _ hnoadj,
      stripEdgeHyphens_head _ hnoadj, stripEdgeHyphens_getLast _ hnoadj⟩
    intro c hc
    exact collapseAux_chars (t.map jsLower) false c (mem_stripEdgeHyphens _ c hc)


/-! ## Ephemeral session registry (`sessions` map and `isValidSession`) -/

/-- The in-memory session registry: token to expiry timestamp (milliseconds,
the unit of `Date.now()`).  JS `Map` semantics are modelled by first-match
lookup and delete-all-occurrences removal (keys are unique in practice). -/
def Sessions : Type := List (List Char × Nat)

/-- Model of `sessions.get(token)`. -/
def sessionsGet : Sessions → List Char → Option Nat
  | [], _ => none
  | (k, v) :: rest, t => if k = t then some v else sessionsGet rest t

/-- Model of `sessions.delete(token)`. -/
def sessionsDelete (s : Sessions) (t : List Char) : Sessions :=
  List.filter (fun kv => decide (kv.1 ≠ t)) s

/-- Model of `isValidSession` from `server/index.ts`: absent token is
invalid; a present token is invalid and evicted when `now > expires`
(strict comparison), valid otherwise.  Returns the verdict and the updated
registry. -/
def isValidSession (s : Sessions) (now : Nat) (token : List Char) :
    Bool × Sessions :=
  match sessionsGet s token with
  | none => (false, s)
  | some expires => if now > expires then (false, sessionsDelete s token) else (true, s)

theorem sessionsGet_delete (s : Sessions) (t : List Char) :
    sessionsGet (sessionsDelete s t) t = none := by
  induction s with
  | nil => rfl
  | cons kv rest ih =>
    rw [sessionsDelete, List.filter_cons]
    by_cases hk : kv.1 = t
    · rw [if_neg (by simp [hk])]
      exact ih
    · rw [if_pos (by simp [hk])]
      rw [show sessionsGet (kv :: List.filter (fun kv => decide (kv.1 ≠ t)) rest) t =
        sessionsGet (List.filter (fun kv => decide (kv.1 ≠ t)) rest) t from by
          obtain ⟨k, v⟩ := kv
          rw [sessionsGet, if_neg (by simpa using hk)]]
      exact ih

/-- Counterexample to claim C2 as stated: the claim requires `verify` to
return false for a check at a time equal to the stored expiry `t`, but
`isValidSession` uses the strict comparison `Date.now() > session.expires`,
so at `now = t = 100` the token still validates as true (and is not
evicted). -/
theorem C2_counterexample :
    (isValidSession [("tok".data, 100)] 100 "tok".data).1 = true := by decide

/-- Claim C2, amended (session verification boundary and eviction): for a
token stored with expiry timestamp t, verify returns true for every check at
a time less than or equal to t (not strictly before t as claimed: the code
compares with strict `>`), returns false for every check at a time strictly
after t, and on the first false-check due to expiry the token's entry is
removed from the registry, so a subsequent verify of the same token also
returns false. -/
theorem C2_session_expiry (s : Sessions) (tok : List Char) (t : Nat)
    (hget : sessionsGet s tok = some t) :
    (∀ now, now ≤ t → isValidSession s now tok = (true, s)) ∧
    (∀ now, t < now →
      (isValidSession s now tok).1 = false ∧
      sessionsGet (isValidSession s now tok).2 tok = none ∧
      ∀ later, (isValidSession (isValidSession s now tok).2 later tok).1 = false) := by
  constructor
  · intro now hnow
    rw [isValidSession, hget]
    show (if now > t then (false, sessionsDelete s tok) else (true, s)) = (true, s)
    rw [if_neg (by omega)]
  · intro now hnow
    have hstep : isValidSession s now tok = (false, sessionsDelete s tok) := by
      rw [isValidSession, hget]
      show (if now > t then (false, sessionsDelete s tok) else (true, s)) =
        (false, sessionsDelete s tok)
      rw [if_pos (by omega)]
    refine ⟨by rw [hstep], by rw [hstep]; exact sessionsGet_delete s tok, ?_⟩
    intro later
    rw [hstep]
    rw [show isValidSession (sessionsDelete s tok) later tok =
      (false, sessionsDelete s tok) from by
        rw [isValidSession, sessionsGet_delete]]

/-- Witness for the amended C2 on a concrete registry: a token with expiry
100 validates at 99 and at 100, fails at 101, and is evicted by that failing
check. -/
theorem C2_session_expiry_witness :
    isValidSession [("tok".data, 100)] 99 "tok".data = (true, [("tok".data, 100)]) ∧
    isValidSession [("tok".data, 100)] 100 "tok".data = (true, [("tok".data, 100)]) ∧
    (isValidSession [("tok".data, 100)] 101 "tok".data).1 = false ∧
    sessionsGet (isValidSession [("tok".data, 100)] 101 "tok".data).2 "tok".data = none ∧
    (isValidSession (isValidSession [("tok".data, 100)] 101 "tok".data).2 102
      "tok".data).1 = false := by
  have h := C2_session_expiry [("tok".data, 100)] "tok".data 100 (by decide)
  exact ⟨h.1 99 (by decide), h.1 100 (by decide), (h.2 101 (by decide)).1,
    (h.2 101 (by decide)).2.1, (h.2 101 (by decide)).2.2 102⟩


/-! ## Comment log (`comments.json` handlers) -/

/-- A stored comment record, as built by the `POST /api/comments` handler:
`id` is the `Date.now()` reading at creation, `createdAt` the ISO timestamp
string of the same moment. -/
structure Comment where
  id : Nat
  author : List Char
  authorColor : List Char
  content : List Char
  createdAt : List Char
  postSlug : List Char
deriving DecidableEq, Repr

/-- The comment store: the parsed contents of `comments.json`, a mapping
from post slug to the ordered sequence of its comments.  JS object semantics
are modelled by first-match lookup and in-place update. -/
def CMap : Type := List (List Char × List Comment)

/-- Model of `comments[postSlug]` (property read). -/
def cmapGet : CMap → List Char → Option (List Comment)
  | [], _ => none
  | (k, v) :: rest, slug => if k = slug then some v else cmapGet rest slug

/-- Model of `comments[postSlug] = arr` (property write): an existing key is
updated in place, a new key is appended, preserving enumeration order. -/
def cmapSet : CMap → List Char → List Comment → CMap
  | [], slug, arr => [(slug, arr)]
  | (k, v) :: rest, slug, arr =>
    if k = slug then (slug, arr) :: rest else (k, v) :: cmapSet rest slug arr

/-- Model of the `GET /api/comments?post=slug` handler body:
`comments[postSlug] || []`. -/
def listComments (m : CMap) (slug : List Char) : List Comment :=
  (cmapGet m slug).getD []

/-- Model of the `POST /api/comments` handler: read the store, create the
partition if absent, push a freshly built comment, and persist.  `nowMs`
models `Date.now()` and `nowIso` models `new Date().toISOString()`. -/
def addComment (m : CMap) (slug content author authorColor : List Char)
    (nowMs : Nat) (nowIso : List Char) : CMap × Comment :=
  let part := (cmapGet m slug).getD []
  let c : Comment := ⟨nowMs, author, authorColor, content, nowIso, slug⟩
  (cmapSet m slug (part ++ [c]), c)

/-- Model of the store mutation and response of the
`DELETE /api/comments/:slug/:id` handler after its authorization gate: when
the partition exists it is filtered by `c.id !== commentId` and persisted,
otherwise the store is untouched; the HTTP response is `{success: true}` in
both cases (the `res.end` sits after the `if`). -/
def removeComment (m : CMap) (slug : List Char) (cid : Nat) : Bool × CMap :=
  match cmapGet m slug with
  | some part => (true, cmapSet m slug (part.filter (fun c => decide (c.id ≠ cid))))
  | none => (true, m)

theorem cmapGet_set_self (m : CMap) (slug : List Char) (arr : List Comment) :
    cmapGet (cmapSet m slug arr) slug = some arr := by
  induction m with
  | nil => simp [cmapSet, cmapGet]
  | cons kv rest ih =>
    obtain ⟨k, v⟩ := kv
    rw [cmapSet]
    by_cases hk : k = slug
    · rw [if_pos hk, cmapGet, if_pos rfl]
    · rw [if_neg hk, cmapGet, if_neg hk]
      exact ih

theorem cmapGet_set_other (m : CMap) (slug other : List Char)
    (arr : List Comment) (hne : other ≠ slug) :
    cmapGet (cmapSet m slug arr) other = cmapGet m other := by
  have h1 : ¬slug = other := fun h => hne h.symm
  induction m with
  | nil =>
    simp [cmapSet, cmapGet]
    exact h1
  | cons kv rest ih =>
    obtain ⟨k, v⟩ := kv
    rw [cmapSet]
    by_cases hk : k = slug
    · have h2 : ¬k = other := by rw [hk]; exact h1
      rw [if_pos hk, cmapGet, if_neg h1, cmapGet, if_neg h2]
    · rw [if_neg hk, cmapGet, cmapGet]
      by_cases hko : k = other
      · rw [if_pos hko, if_pos hko]
      · rw [if_neg hko, if_neg hko]
        exact ih

theorem listComments_add_same (m : CMap) (slug content author authorColor : List Char)
    (nowMs : Nat) (nowIso : List Char) :
    listComments (addComment m slug content author authorColor nowMs nowIso).1 slug =
      listComments m slug ++ [⟨nowMs, author, authorColor, content, nowIso, slug⟩] := by
  rw [addComment, listComments, listComments]
  simp only [cmapGet_set_self]
  rfl


/-- One request body for the `POST /api/comments` handler, together with the
clock readings taken while serving it. -/
structure AddReq where
  content : List Char
  author : List Char
  authorColor : List Char
  nowMs : Nat
  nowIso : List Char
deriving DecidableEq, Repr

/-- The comment the handler builds for a request against a given slug. -/
def mkComment (slug : List Char) (r : AddReq) : Comment :=
  ⟨r.nowMs, r.author, r.authorColor, r.content, r.nowIso, slug⟩

/-- A sequence of add requests against the same slug, executed in order. -/
def foldAdds (m : CMap) (slug : List Char) : List AddReq → CMap
  | [] => m
  | r :: rs =>
    foldAdds (addComment m slug r.content r.author r.authorColor r.nowMs r.nowIso).1
      slug rs

/-- Claim C7 (comment append order and id distinctness): for every sequence
of add calls to the same partition with no concurrent writer, listing that
slug returns the previously stored comments followed by the new comments in
the order they were added; in particular, adding Alice's and then Bob's
comment to `hello-world` (at the two clock readings 1000 and 2000) makes
`list("hello-world")` return exactly those two comments in that order, each
with a distinct id. -/
theorem C7_comment_append_order :
    (∀ (m : CMap) (slug : List Char) (rs : List AddReq),
      listComments (foldAdds m slug rs) slug =
        listComments m slug ++ rs.map (mkComment slug)) ∧
    (listComments
        (addComment
          (addComment ([] : CMap) "hello-world".data "nice post".data
            "Alice".data "#ff0000".data 1000 "2024-01-01T00:00:01.000Z".data).1
          "hello-world".data "thanks".data "Bob".data "#00ff00".data 2000
          "2024-01-01T00:00:02.000Z".data).1 "hello-world".data =
      [⟨1000, "Alice".data, "#ff0000".data, "nice post".data,
        "2024-01-01T00:00:01.000Z".data, "hello-world".data⟩,
       ⟨2000, "Bob".data, "#00ff00".data, "thanks".data,
        "2024-01-01T00:00:02.000Z".data, "hello-world".data⟩] ∧
      (1000 : Nat) ≠ 2000) := by
  constructor
  · intro m slug rs
    induction rs generalizing m with
    | nil => simp [foldAdds]
    | cons r rs' ih =>
      rw [foldAdds, ih, listComments_add_same]
      simp [mkComment]
  · exact ⟨by decide, by decide⟩

/-- Claim C8 (comment partition isolation): adding a comment to the
partition for slug A leaves the partition for any other slug B exactly as it
was, same comments in the same order. -/
theorem C8_partition_isolation (m : CMap)
    (a b content author authorColor : List Char) (nowMs : Nat)
    (nowIso : List Char) (hne : b ≠ a) :
    listComments (addComment m a content author authorColor nowMs nowIso).1 b =
      listComments m b := by
  rw [addComment, listComments, listComments]
  simp only [cmapGet_set_other _ _ _ _ hne]

/-- Witness for C8: adding to `hello-world` does not disturb the partition
of `other-post`. -/
theorem C8_partition_isolation_witness :
    listComments
        (addComment
          [("other-post".data,
            [⟨1, "Eve".data, "#111111".data, "hi".data, "t0".data,
              "other-post".data⟩])]
          "hello-world".data "nice post".data "Alice".data "#ff0000".data 1000
          "t1".data).1 "other-post".data =
      [⟨1, "Eve".data, "#111111".data, "hi".data, "t0".data,
        "other-post".data⟩] := by
  rw [C8_partition_isolation _ _ _ _ _ _ _ _ (by decide)]
  decide

/-- Counterexample to claim C4 as stated: the claim says the returned
success value equals whether the partition for the slug existed; on an empty
store the partition does not exist, yet the handler still responds
`{success: true}` (its `res.end` is outside the `if`). -/
theorem C4_counterexample :
    (removeComment ([] : CMap) "missing".data 1).1 = true ∧
    cmapGet ([] : CMap) "missing".data = none := by
  exact ⟨rfl, rfl⟩

/-- Claim C4, amended (comment remove result semantics): remove filters the
partition for postSlug to exclude comments with the matching id and persists
the mapping when the partition exists, leaves the store untouched otherwise,
and in either case its returned success value is true — it reports neither
whether the partition existed nor whether an entry was actually removed.
Other partitions are never altered. -/
theorem C4_remove_semantics (m : CMap) (slug : List Char) (cid : Nat) :
    (removeComment m slug cid).1 = true ∧
    listComments (removeComment m slug cid).2 slug =
      (listComments m slug).filter (fun c => decide (c.id ≠ cid)) ∧
    ∀ other, other ≠ slug →
      listComments (removeComment m slug cid).2 other = listComments m other := by
  rcases h : cmapGet m slug with _ | part
  · have hrem : removeComment m slug cid = (true, m) := by
      rw [removeComment, h]
    refine ⟨by rw [hrem], ?_, ?_⟩
    · rw [hrem, listComments, h]
      rfl
    · intro other hne
      rw [hrem]
  · have hrem : removeComment m slug cid =
        (true, cmapSet m slug (part.filter (fun c => decide (c.id ≠ cid)))) := by
      rw [removeComment, h]
    refine ⟨by rw [hrem], ?_, ?_⟩
    · rw [hrem, listComments, listComments, h, cmapGet_set_self]
      rfl
    · intro other hne
      rw [hrem, listComments, listComments, cmapGet_set_other _ _ _ _ hne]

/-- Witness for the amended C4: removing Alice's id from `hello-world`
keeps Bob's comment, reports success, and leaves `other-post` alone; and
removing from a store without the partition reports success with the store
unchanged (`C4_counterexample` exhibits the success-despite-missing
partition directly). -/
theorem C4_remove_semantics_witness :
    (removeComment
        [("hello-world".data,
          [⟨1000, "Alice".data, "#ff0000".data, "nice post".data, "t1".data,
            "hello-world".data⟩,
           ⟨2000, "Bob".data, "#00ff00".data, "thanks".data, "t2".data,
            "hello-world".data⟩])] "hello-world".data 1000).1 = true ∧
    listComments
        (removeComment
          [("hello-world".data,
            [⟨1000, "Alice".data, "#ff0000".data, "nice post".data, "t1".data,
              "hello-world".data⟩,
             ⟨2000, "Bob".data, "#00ff00".data, "thanks".data, "t2".data,
              "hello-world".data⟩])] "hello-world".data 1000).2
        "hello-world".data =
      [⟨2000, "Bob".data, "#00ff00".data, "thanks".data, "t2".data,
        "hello-world".data⟩] ∧
    listComments
        (removeComment
          [("hello-world".data,
            [⟨1000, "Alice".data, "#ff0000".data, "nice post".data, "t1".data,
              "hello-world".data⟩,
             ⟨2000, "Bob".data, "#00ff00".data, "thanks".data, "t2".data,
              "hello-world".data⟩])] "hello-world".data 1000).2
        "other-post".data =
      listComments
        [("hello-world".data,
          [⟨1000, "Alice".data, "#ff0000".data, "nice post".data, "t1".data,
            "hello-world".data⟩,
           ⟨2000, "Bob".data, "#00ff00".data, "thanks".data, "t2".data,
            "hello-world".data⟩])] "other-post".data := by
  have h := C4_remove_semantics
    [("hello-world".data,
      [⟨1000, "Alice".data, "#ff0000".data, "nice post".data, "t1".data,
        "hello-world".data⟩,
       ⟨2000, "Bob".data, "#00ff00".data, "thanks".data, "t2".data,
        "hello-world".data⟩])] "hello-world".data 1000
  refine ⟨h.1, ?_, h.2.2 "other-post".data (by decide)⟩
  rw [h.2.1]
  decide


/-- Outcome of the authorization-gated comment delete handler. -/
inductive AuthResult where
  | unauthorized
  | ok
deriving DecidableEq, Repr

/-- Model of the whole `DELETE /api/comments/:slug/:id` handler:
`tok` is the bearer token extracted from the Authorization header (`none`
when the header is absent), and a present-but-empty token is also rejected
by the JS falsy check `!token`.  The diagnostic `console.log` line calls
`isValidSession` once (with its eviction side effect on the registry) before
the gate calls it again; both calls are modelled.  On a failed gate the
handler responds 401 without touching the comment store; otherwise it
performs the remove and responds success. -/
def deleteCommentHandler (tok : Option (List Char)) (s : Sessions) (now : Nat)
    (m : CMap) (slug : List Char) (cid : Nat) : AuthResult × CMap × Sessions :=
  match tok with
  | none => (.unauthorized, m, s)
  | some t =>
    if t = [] then (.unauthorized, m, s)
    else
      let s1 := (isValidSession s now t).2
      let v2 := isValidSession s1 now t
      if v2.1 then (.ok, (removeComment m slug cid).2, v2.2)
      else (.unauthorized, m, v2.2)

/-- Claim C10 (comment removal is atomic with respect to authorization): if
the comment-delete operation is invoked with no token, an empty or unknown
token, or an expired token, it fails with Unauthorized and the comment store
is left unchanged — every partition of the stored comment mapping reads back
exactly as before. -/
theorem C10_remove_auth_gate (tok : Option (List Char)) (s : Sessions)
    (now : Nat) (m : CMap) (slug : List Char) (cid : Nat)
    (hbad : tok = none ∨ tok = some [] ∨
      (∃ t, tok = some t ∧ sessionsGet s t = none) ∨
      (∃ t e, tok = some t ∧ sessionsGet s t = some e ∧ e < now)) :
    (deleteCommentHandler tok s now m slug cid).1 = .unauthorized ∧
    (deleteCommentHandler tok s now m slug cid).2.1 = m ∧
    ∀ sl, listComments (deleteCommentHandler tok s now m slug cid).2.1 sl =
      listComments m sl := by
  suffices h : (deleteCommentHandler tok s now m slug cid).1 = .unauthorized ∧
      (deleteCommentHandler tok s now m slug cid).2.1 = m by
    exact ⟨h.1, h.2, fun sl => by rw [h.2]⟩
  rcases hbad with rfl | rfl | ⟨t, rfl, hget⟩ | ⟨t, e, rfl, hget, hlt⟩
  · exact ⟨rfl, rfl⟩
  · exact ⟨rfl, rfl⟩
  · by_cases ht : t = []
    · subst ht
      exact ⟨rfl, rfl⟩
    · have h1 : isValidSession s now t = (false, s) := by
        rw [isValidSession, hget]
      simp only [deleteCommentHandler, if_neg ht, h1]
      exact ⟨rfl, rfl⟩
  · by_cases ht : t = []
    · subst ht
      exact ⟨rfl, rfl⟩
    · have h1 : isValidSession s now t = (false, sessionsDelete s t) := by
        rw [isValidSession, hget]
        show (if now > e then (false, sessionsDelete s t) else (true, s)) =
          (false, sessionsDelete s t)
        rw [if_pos (by omega)]
      have h2 : isValidSession (sessionsDelete s t) now t =
          (false, sessionsDelete s t) := by
        rw [isValidSession, sessionsGet_delete]
      simp only [deleteCommentHandler, if_neg ht, h1, h2]
      exact ⟨rfl, rfl⟩

/-- Witness for C10: deleting with an expired token (expiry 50, checked at
100) is rejected and leaves the concrete store with its one partition
intact. -/
theorem C10_remove_auth_gate_witness :
    (deleteCommentHandler (some "tk".data) [("tk".data, 50)] 100
        [("hello-world".data,
          [⟨1000, "Alice".data, "#ff0000".data, "nice post".data, "t1".data,
            "hello-world".data⟩])] "hello-world".data 1000).1 =
      AuthResult.unauthorized ∧
    (deleteCommentHandler (some "tk".data) [("tk".data, 50)] 100
        [("hello-world".data,
          [⟨1000, "Alice".data, "#ff0000".data, "nice post".data, "t1".data,
            "hello-world".data⟩])] "hello-world".data 1000).2.1 =
      [("hello-world".data,
        [⟨1000, "Alice".data, "#ff0000".data, "nice post".data, "t1".data,
          "hello-world".data⟩])] := by
  have h := C10_remove_auth_gate (some "tk".data) [("tk".data, 50)] 100
    [("hello-world".data,
      [⟨1000, "Alice".data, "#ff0000".data, "nice post".data, "t1".data,
        "hello-world".data⟩])] "hello-world".data 1000
    (Or.inr (Or.inr (Or.inr ⟨"tk".data, 50, rfl, by decide, by decide⟩)))
  exact ⟨h.1, h.2.1⟩


/-! ## Post repository (`BLOG_DIR` handlers) -/

/-- The blog directory: slug to raw markdown document text (the file named
`<slug>.md`; the fixed extension makes slug-keying faithful). -/
def Store : Type := List (List Char × List Char)

/-- Model of reading `BLOG_DIR/<slug>.md` (`fs.existsSync` plus
`fs.readFileSync`). -/
def storeGet : Store → List Char → Option (List Char)
  | [], _ => none
  | (k, v) :: rest, slug => if k = slug then some v else storeGet rest slug

/-- Model of `fs.writeFileSync(BLOG_DIR/<slug>.md, text)`: create or
overwrite. -/
def storeSet : Store → List Char → List Char → Store
  | [], slug, text => [(slug, text)]
  | (k, v) :: rest, slug, text =>
    if k = slug then (slug, text) :: rest else (k, v) :: storeSet rest slug text

/-- Model of `fs.unlinkSync(BLOG_DIR/<slug>.md)`. -/
def storeErase (st : Store) (slug : List Char) : Store :=
  List.filter (fun e => decide (e.1 ≠ slug)) st

/-- Model of the `POST /api/posts` handler: derive the slug
(`existingSlug || generateSlug(title)`, where a present-but-empty slug is
falsy), encode the frontmatter template with the current date, and write the
document; returns the updated store and the slug. -/
def putPost (st : Store) (title description category : List Char)
    (tags : List (List Char)) (content : List Char)
    (existingSlug : Option (List Char)) (today : List Char) :
    Store × List Char :=
  let slug := match existingSlug with
    | some s => if s = [] then generateSlug title else s
    | none => generateSlug title
  (storeSet st slug (encodeFM title description category tags today content), slug)

/-- Model of the `GET /api/posts/:slug` handler: decode the stored document;
`none` models the 404 `Post not found` response. -/
def getPost (st : Store) (slug : List Char) :
    Option (List (List Char × FmValue) × List Char) :=
  (storeGet st slug).map decodeDoc

/-- Model of the `DELETE /api/posts/:slug` handler: remove the document when
it exists; `none` models the 404 `Not found` response. -/
def deletePost (st : Store) (slug : List Char) : Option Store :=
  match storeGet st slug with
  | some _ => some (storeErase st slug)
  | none => none

theorem storeGet_set_self (st : Store) (slug text : List Char) :
    storeGet (storeSet st slug text) slug = some text := by
  induction st with
  | nil => simp [storeSet, storeGet]
  | cons kv rest ih =>
    obtain ⟨k, v⟩ := kv
    rw [storeSet]
    by_cases hk : k = slug
    · rw [if_pos hk, storeGet, if_pos rfl]
    · rw [if_neg hk, storeGet, if_neg hk]
      exact ih

theorem storeGet_erase (st : Store) (slug : List Char) :
    storeGet (storeErase st slug) slug = none := by
  induction st with
  | nil => rfl
  | cons kv rest ih =>
    rw [storeErase, List.filter_cons]
    by_cases hk : kv.1 = slug
    · rw [if_neg (by simp [hk])]
      exact ih
    · rw [if_pos (by simp [hk])]
      rw [show storeGet (kv :: List.filter (fun e => decide (e.1 ≠ slug)) rest) slug =
        storeGet (List.filter (fun e => decide (e.1 ≠ slug)) rest) slug from by
          obtain ⟨k, v⟩ := kv
          rw [storeGet, if_neg (by simpa using hk)]]
      exact ih

theorem getPost_after_put (st : Store) (F : FmFields) (today B slug : List Char)
    (hF : ValidFields F) (ht : ValidPlain today) (hB : B.head? ≠ some '\n') :
    getPost (storeSet st slug
        (encodeFM F.title F.description F.category F.tags today B)) slug =
      some (({ F with pubDate := today } : FmFields).toFieldList, B) := by
  rw [getPost, storeGet_set_self]
  show some (decodeDoc (encodeFM F.title F.description F.category F.tags today B)) = _
  rw [fm_roundtrip F today B hF ht hB]

/-- Claim C6 (post lifecycle): after a put with no existing slug, getting
the derived slug succeeds and returns the written fields (with the stamped
date and `draft: false`) and body; after a successful delete of a slug, a
get of that slug fails with NotFound; and deleting a slug whose document
does not exist signals NotFound. -/
theorem C6_post_lifecycle :
    (∀ (st : Store) (F : FmFields) (today B : List Char),
      ValidFields F → ValidPlain today → B.head? ≠ some '\n' →
      getPost (putPost st F.title F.description F.category F.tags B none today).1
          (putPost st F.title F.description F.category F.tags B none today).2 =
        some (({ F with pubDate := today } : FmFields).toFieldList, B)) ∧
    (∀ (st st' : Store) (slug : List Char), deletePost st slug = some st' →
      getPost st' slug = none) ∧
    (∀ (st : Store) (slug : List Char), storeGet st slug = none →
      deletePost st slug = none) := by
  refine ⟨?_, ?_, ?_⟩
  · intro st F today B hF ht hB
    exact getPost_after_put st F today B (generateSlug F.title) hF ht hB
  · intro st st' slug hdel
    have herase : st' = storeErase st slug := by
      rcases h : storeGet st slug with _ | text
      · rw [deletePost, h] at hdel
        exact absurd hdel (by simp)
      · rw [deletePost, h] at hdel
        exact (Option.some.inj hdel).symm
    rw [herase, getPost, storeGet_erase]
    rfl
  · intro st slug h
    rw [deletePost, h]

/-- Witness for C6: the concrete scenario of the spec — putting the post
titled Hello World yields slug `hello-world`, getting it returns the written
fields and body; deleting it empties the store, after which the get fails,
and deleting a missing slug fails. -/
theorem C6_post_lifecycle_witness :
    getPost (putPost ([] : Store) "Hello World".data "d".data "tech".data
        ["x".data] "body".data none "2024-01-15".data).1
      (putPost ([] : Store) "Hello World".data "d".data "tech".data
        ["x".data] "body".data none "2024-01-15".data).2 =
      some ([("title".data, .str "Hello World".data),
             ("description".data, .str "d".data),
             ("pubDate".data, .str "2024-01-15".data),
             ("category".data, .str "tech".data),
             ("tags".data, .arr ["x".data]),
             ("draft".data, .str "false".data)], "body".data) ∧
    (∀ st' : Store,
      deletePost [("hello-world".data, "doc".data)] "hello-world".data = some st' →
      getPost st' "hello-world".data = none) ∧
    deletePost ([] : Store) "missing".data = none := by
  refine ⟨?_, ?_, ?_⟩
  · exact C6_post_lifecycle.1 []
      ⟨"Hello World".data, "d".data, "x".data, "tech".data, ["x".data],
        "false".data⟩
      "2024-01-15".data "body".data (by decide) (by decide) (by decide)
  · intro st' h
    exact C6_post_lifecycle.2.1 [("hello-world".data, "doc".data)] st'
      "hello-world".data h
  · exact C6_post_lifecycle.2.2 [] "missing".data (by decide)

/-- Counterexample to claim C3 as stated: create a post on 2024-01-01, edit
it (put with its existing slug) on 2024-01-02 — the stored pubDate is the
edit date, not the creation date, because the handler stamps
`new Date().toISOString().split('T')[0]` on every put. -/
theorem C3_counterexample :
    fieldsGet
      ((getPost
        (putPost
          (putPost ([] : Store) "Hello".data "d".data "tech".data ["x".data]
            "body".data none "2024-01-01".data).1
          "Hello".data "d2".data "tech".data ["x".data] "body2".data
          (some "hello".data) "2024-01-02".data).1
        "hello".data).getD ([], [])).1 "pubDate".data =
      some (.str "2024-01-02".data) ∧
    ("2024-01-02".data : List Char) ≠ "2024-01-01".data := by
  exact ⟨by decide, by decide⟩

/-- Claim C3, amended (pubDate is re-stamped on every put): a put carrying
an existing slug overwrites the whole document and stamps pubDate with the
put-time date; the creation-time pubDate is not preserved (edits replace
body, frontmatter and pubDate alike). -/
theorem C3_pubDate_restamped (st : Store) (F : FmFields) (today B s : List Char)
    (hF : ValidFields F) (ht : ValidPlain today) (hB : B.head? ≠ some '\n')
    (hs : s ≠ []) :
    getPost (putPost st F.title F.description F.category F.tags B (some s) today).1
        s = some (({ F with pubDate := today } : FmFields).toFieldList, B) ∧
    fieldsGet (({ F with pubDate := today } : FmFields).toFieldList)
      "pubDate".data = some (.str today) := by
  constructor
  · have hslug : (if s = [] then generateSlug F.title else s) = s := if_neg hs
    show getPost (storeSet st (if s = [] then generateSlug F.title else s)
      (encodeFM F.title F.description F.category F.tags today B))
      s = _
    rw [hslug]
    exact getPost_after_put st F today B s hF ht hB
  · simp [fieldsGet, FmFields.toFieldList]

/-- Witness for the amended C3: editing the `hello` post on 2024-01-02
stores pubDate 2024-01-02. -/
theorem C3_pubDate_restamped_witness :
    getPost (putPost [("hello".data, "old".data)] "Hello".data "d2".data
        "tech".data ["x".data] "body2".data (some "hello".data)
        "2024-01-02".data).1 "hello".data =
      some ([("title".data, .str "Hello".data),
             ("description".data, .str "d2".data),
             ("pubDate".data, .str "2024-01-02".data),
             ("category".data, .str "tech".data),
             ("tags".data, .arr ["x".data]),
             ("draft".data, .str "false".data)], "body2".data) ∧
    fieldsGet [("title".data, FmValue.str "Hello".data),
               ("description".data, .str "d2".data),
               ("pubDate".data, .str "2024-01-02".data),
               ("category".data, .str "tech".data),
               ("tags".data, .arr ["x".data]),
               ("draft".data, .str "false".data)] "pubDate".data =
      some (.str "2024-01-02".data) := by
  have h := C3_pubDate_restamped [("hello".data, "old".data)]
    ⟨"Hello".data, "d2".data, "x".data, "tech".data, ["x".data], "false".data⟩
    "2024-01-02".data "body2".data "hello".data
    (by decide) (by decide) (by decide) (by decide)
  exact ⟨h.1, h.2⟩


/-! ## Post listing with sort (`GET /api/posts`) -/

/-- One decoded post as the list handler builds it: filename-derived slug,
decoded frontmatter fields, body. -/
structure Post where
  slug : List Char
  fields : List (List Char × FmValue)
  content : List Char
deriving DecidableEq, Repr

/-- Decode one directory entry into a post. -/
def decodeEntry (e : List Char × List Char) : Post :=
  ⟨e.1, (decodeDoc e.2).1, (decodeDoc e.2).2⟩

/-- ASCII digit test. -/
def isDigitChar (c : Char) : Bool := '0' ≤ c && c ≤ '9'

/-- Parse a nonempty all-digit string as a natural number. -/
def parseNatDigits (l : List Char) : Option Nat :=
  if l ≠ [] ∧ l.all isDigitChar then
    some (l.foldl (fun a c => a * 10 + (c.toNat - 48)) 0)
  else none

/-- Gregorian leap-year rule. -/
def isLeapYear (y : Nat) : Bool :=
  (y % 4 = 0 && decide (y % 100 ≠ 0)) || y % 400 = 0

/-- Days in a calendar month. -/
def daysInMonth (y m : Nat) : Nat :=
  if m = 2 then (if isLeapYear y then 29 else 28)
  else if m = 4 ∨ m = 6 ∨ m = 9 ∨ m = 11 then 30
  else 31

/-- Days from 1970-01-01 to the given civil date (standard era-based
computation over the proleptic Gregorian calendar, shifted by 400 years to
keep the intermediate arithmetic in natural numbers). -/
def daysFromCivil (y m d : Nat) : Int :=
  let y1 := y + 400
  let yAdj := if m ≤ 2 then y1 - 1 else y1
  let mp := if m ≤ 2 then m + 9 else m - 3
  let era := yAdj / 400
  let yoe := yAdj % 400
  let doy := (153 * mp + 2) / 5 + (d - 1)
  let doe := yoe * 365 + yoe / 4 - yoe / 100 + doy
  (Int.ofNat (era * 146097 + doe)) - 146097 - 719468

/-- Model of `new Date(s).getTime()` restricted to ISO calendar dates
`YYYY-MM-DD`, the only format the encoder writes: the epoch millisecond
timestamp of UTC midnight.  Anything else — including formats the JS Date
parser would itself accept, such as full ISO datetimes — is outside the
model and yields `none`; the listing theorem restricts its store to dates
this model covers via `goodPubDate` below, so `none` never stands in for a
real timestamp inside a proved statement. -/
def parseDateMs (s : List Char) : Option Int :=
  match splitOnChar '-' s with
  | [ys, ms, ds] =>
    match parseNatDigits ys, parseNatDigits ms, parseNatDigits ds with
    | some y, some mo, some d =>
      if ys.length = 4 ∧ ms.length = 2 ∧ ds.length = 2 ∧ 1 ≤ mo ∧ mo ≤ 12 ∧
          1 ≤ d ∧ d ≤ daysInMonth y mo then
        some (86400000 * daysFromCivil y mo d)
      else none
    | _, _, _ => none
  | _ => none

/-- The date string the sort uses for a post: `a.pubDate || '1970-01-01'`.
A missing key and the empty (JS-falsy) string fall back to the epoch date.
`none` marks the out-of-model case of a non-string decoded value: an array
is truthy in JS and would be string-coerced by `new Date`, a path the
encoder never produces and the listing theorem excludes by hypothesis. -/
def pubDateOrDefault (p : Post) : Option (List Char) :=
  match fieldsGet p.fields "pubDate".data with
  | none => some ("1970-01-01".data)
  | some (.str s) => some (if s = [] then "1970-01-01".data else s)
  | some (.arr _) => none

/-- The timestamp the comparator reads for a post, when the model covers
its date. -/
def postKey (p : Post) : Option Int := (pubDateOrDefault p).bind parseDateMs

/-- Total extension of `postKey` used by the executable comparator; the
default is exercised only outside the `goodPubDate` domain to which the
listing theorem restricts its claim (there the source comparator arithmetic
involves NaN or coerced non-strings and is engine-dependent). -/
def sortKey (p : Post) : Int := (postKey p).getD 0

/-- A post whose date the model covers: the pubDate field is absent, the
empty string, or a string `parseDateMs` accepts — exactly what the encoder
and its default produce. -/
def goodPubDate (p : Post) : Bool :=
  match pubDateOrDefault p with
  | some s => (parseDateMs s).isSome
  | none => false

/-- The comparator `(a, b) => dateB - dateA` sorts ascending in that value,
i.e. places `a` before `b` when `dateB ≤ dateA`. -/
def postLe (a b : Post) : Bool := decide (sortKey b ≤ sortKey a)

/-- Model of the `GET /api/posts` handler: decode every directory entry,
then sort by pubDate, newest first (stable sort, as ES2019 `Array.sort`). -/
def listPosts (st : Store) : List Post :=
  (st.map decodeEntry).mergeSort postLe

theorem goodPubDate_postKey (p : Post) (hp : goodPubDate p = true) :
    postKey p = some (sortKey p) := by
  rcases hpd : pubDateOrDefault p with _ | s
  · rw [goodPubDate, hpd] at hp
    exact absurd hp (by simp)
  · rw [goodPubDate, hpd] at hp
    have hp' : (parseDateMs s).isSome = true := hp
    rcases hps : parseDateMs s with _ | k
    · rw [hps] at hp'
      simp at hp'
    · rw [sortKey, postKey, hpd]
      simp [hps]

/-- Claim C9 (implicit; post list ordering): for every store whose decoded
posts carry dates the model covers (pubDate absent, empty, or a YYYY-MM-DD
calendar date — what the handler's own encoder and default produce), the
post list operation returns the decoded posts sorted by pubDate in
descending order: every pair in the output is ordered by non-increasing
timestamp, and the output is a permutation of the decoded directory
entries.  A missing pubDate is treated as the date 1970-01-01, whose
timestamp is the epoch 0. -/
theorem C9_list_sorted_by_pubDate (st : Store)
    (hst : ∀ p ∈ st.map decodeEntry, goodPubDate p = true) :
    (listPosts st).Pairwise (fun a b =>
      ∃ ka kb, postKey a = some ka ∧ postKey b = some kb ∧ kb ≤ ka) ∧
    (listPosts st).Perm (st.map decodeEntry) ∧
    parseDateMs "1970-01-01".data = some 0 ∧
    (∀ p : Post, fieldsGet p.fields "pubDate".data = none →
      pubDateOrDefault p = some ("1970-01-01".data) ∧ sortKey p = 0) := by
  have hperm : (listPosts st).Perm (st.map decodeEntry) :=
    List.mergeSort_perm _ _
  have hmem : ∀ p ∈ listPosts st, goodPubDate p = true := fun p hp =>
    hst p (hperm.mem_iff.mp hp)
  refine ⟨?_, hperm, by decide, ?_⟩
  · have hs := @List.sorted_mergeSort Post postLe
      (fun a b c hab hbc => by
        simp only [postLe, decide_eq_true_eq] at hab hbc ⊢
        omega)
      (fun a b => by
        simp only [postLe, Bool.or_eq_true, decide_eq_true_eq]
        omega)
      (st.map decodeEntry)
    have hs' : (listPosts st).Pairwise (fun a b => sortKey b ≤ sortKey a) :=
      hs.imp (fun h => by simpa [postLe] using h)
    refine hs'.imp_of_mem ?_
    intro a b ha hb hle
    exact ⟨sortKey a, sortKey b, goodPubDate_postKey a (hmem a ha),
      goodPubDate_postKey b (hmem b hb), hle⟩
  · intro p h
    have hd : pubDateOrDefault p = some ("1970-01-01".data) := by
      rw [pubDateOrDefault, h]
    refine ⟨hd, ?_⟩
    rw [sortKey, postKey, hd]
    decide

/-- Concrete two-document store for the C9 witness: one post dated
2024-01-02 and one raw document with no frontmatter at all (hence no
pubDate). -/
def c9DemoStore : Store :=
  [("b".data, "---\ntitle: \"B\"\npubDate: 2024-01-02\n---\n\nbody b".data),
   ("a".data, "plain text, no frontmatter".data)]

/-- Witness for C9 at the concrete store, discharging the well-formed-dates
hypothesis by evaluation (and its missing-pubDate clause at a concrete
post). -/
theorem C9_list_sorted_by_pubDate_witness :
    ((listPosts c9DemoStore).Pairwise (fun a b =>
      ∃ ka kb, postKey a = some ka ∧ postKey b = some kb ∧ kb ≤ ka) ∧
    (listPosts c9DemoStore).Perm (c9DemoStore.map decodeEntry) ∧
    parseDateMs "1970-01-01".data = some 0 ∧
    (∀ p : Post, fieldsGet p.fields "pubDate".data = none →
      pubDateOrDefault p = some ("1970-01-01".data) ∧ sortKey p = 0)) ∧
    pubDateOrDefault ⟨"a".data, [("title".data, .str "T".data)], "c".data⟩ =
      some ("1970-01-01".data) ∧
    sortKey ⟨"a".data, [("title".data, .str "T".data)], "c".data⟩ = 0 := by
  have h := C9_list_sorted_by_pubDate c9DemoStore (by decide)
  exact ⟨h, h.2.2.2 ⟨"a".data, [("title".data, .str "T".data)], "c".data⟩
    (by decide)⟩


/-- Witness for C5, discharging its determinism hypothesis at a concrete
title and instantiating the structural clauses at a concrete input. -/
theorem C5_generateSlug_spec_witness :
    generateSlug "Hello, World!".data = generateSlug "Hello, World!".data ∧
    generateSlug "--draft--".data ≠ [] ∧
    noAdjHyphen (generateSlug "--draft--".data) = true :=
  ⟨C5_generateSlug_spec.2.2.1 "Hello, World!".data "Hello, World!".data rfl,
   (C5_generateSlug_spec.2.2.2 "--draft--".data).1,
   (C5_generateSlug_spec.2.2.2 "--draft--".data).2.2.1⟩

